import Mathlib

/-!
Shallow embedding of a DPLL SAT solver written in Go.

The Go program represents a CNF formula as a slice of clauses, each clause a
slice of nonzero signed integer literals, and a partial assignment as a
`map[int]bool`.  The embedding below mirrors each Go function: `assign`
(substitution of a truth value for a variable), `UnitPropagation` (unit
resolution to a fixed point, with a conflict flag), `PureLiteralElimination`
(a single sweep over the pure literals judged by frozen occurrence counts),
`DPLL` (the recursive backtracking search, sharing one assignment across
branches exactly as the Go map is shared), and `CompleteAssignment`.

Loops are embedded with explicit fuel; adequacy of the chosen fuel is proved
(`UPgo_no_unit`, `DPLLgo_total`), so the fuelled functions compute the
same results as the Go loops.  The Go map is embedded as a function
`Int → Option Bool`; pure-literal elimination iterates over the map keys in an
explicit order, and order-irrelevance is proved (`PLEgo_perm`).
-/

namespace Solver

/-- A partial assignment: the Go `map[int]bool`. -/
abbrev Assgn := Int → Option Bool

/-- The empty assignment. -/
def emptyA : Assgn := fun _ => none

/-- Map update, `assignment[v] = b` in Go. -/
def insertA (a : Assgn) (v : Int) (b : Bool) : Assgn :=
  fun x => if x = v then some b else a x

/-- The Go helper function abs. -/
def abs (x : Int) : Int := if x < 0 then -x else x

/-- The literal made true by giving variable `v` the value `b`. -/
def tLit (v : Int) (b : Bool) : Int := if b then v else -v

/-- The literal made false by giving variable `v` the value `b`. -/
def fLit (v : Int) (b : Bool) : Int := if b then -v else v

/-- The inner loop of the Go function assign, over one clause: `none` when the
clause contains the satisfied literal (Go `skipClause`), otherwise the rebuilt
clause with the occurrences of the variable removed. -/
def assignClause (v : Int) (b : Bool) : List Int → Option (List Int)
  | [] => some []
  | l :: rest =>
    if (l = v ∧ b) ∨ (l = -v ∧ ¬(b = true)) then none
    else if l ≠ v ∧ l ≠ -v then (assignClause v b rest).map (l :: ·)
    else assignClause v b rest

/-- The Go function assign: simplify the CNF under `variable ↦ value`. -/
def assign (cnf : List (List Int)) (v : Int) (b : Bool) : List (List Int) :=
  cnf.filterMap (assignClause v b)

/-- The first unit clause (length exactly 1) of the formula, if any. -/
def findUnit : List (List Int) → Option Int
  | [] => none
  | c :: rest =>
    match c with
    | [l] => some l
    | _ => findUnit rest

/-- The while-loop of the Go function UnitPropagation, with explicit fuel;
each iteration resolves the first unit clause found in clause order. -/
def UPgo : Nat → List (List Int) → Assgn → List (List Int) × Assgn
  | 0, cnf, a => (cnf, a)
  | fuel+1, cnf, a =>
    match findUnit cnf with
    | none => (cnf, a)
    | some u => UPgo fuel (assign cnf (abs u) (decide (0 < u))) (insertA a (abs u) (decide (0 < u)))

/-- The Go function UnitPropagation: iterate unit resolution to the fixed
point, then flag failure iff an empty clause is present.  The fuel
`cnf.length + 1` is adequate because each iteration drops the resolved unit
clause, so the clause count strictly decreases. -/
def UnitPropagation (cnf : List (List Int)) (a : Assgn) : List (List Int) × Assgn × Bool :=
  let p := UPgo (cnf.length + 1) cnf a
  (p.1, p.2, !(p.1.any List.isEmpty))

/-- Occurrence count of a literal, the Go literalCount map. -/
def countLit (cnf : List (List Int)) (l : Int) : Nat := cnf.flatten.count l

/-- The Go purity test, read off the frozen occurrence counts of `cnf0`. -/
def pureP (cnf0 : List (List Int)) (l : Int) : Bool :=
  decide (0 < countLit cnf0 l) && decide (countLit cnf0 (-l) = 0)

/-- The loop of the Go function PureLiteralElimination over one enumeration of
the keys of the occurrence-count map; purity is judged on the frozen counts of
`cnf0`, never on the current formula, exactly as in the Go code. -/
def PLEgo (cnf0 : List (List Int)) : List Int → List (List Int) → Assgn → List (List Int) × Assgn
  | [], cnf, a => (cnf, a)
  | l :: order, cnf, a =>
    if pureP cnf0 l then
      PLEgo cnf0 order (assign cnf (abs l) (decide (0 < l))) (insertA a (abs l) (decide (0 < l)))
    else PLEgo cnf0 order cnf a

/-- A canonical enumeration of the keys of the Go literalCount map: the
distinct literals of the formula, in first-occurrence order. -/
def litOrder (cnf : List (List Int)) : List Int := cnf.flatten.dedup

/-- The Go function PureLiteralElimination, returning the simplified formula
together with the updated assignment. -/
def PureLiteralElimination (cnf : List (List Int)) (a : Assgn) : List (List Int) × Assgn :=
  PLEgo cnf (litOrder cnf) cnf a

/-- Branch-variable selection of Go DPLL: the magnitude of the first literal
of the first non-empty clause (0, the Go zero value, when none exists). -/
def selectVar : List (List Int) → Int
  | [] => 0
  | [] :: rest => selectVar rest
  | (l :: _) :: _ => abs l

/-- The Go function DPLL, with explicit fuel bounding the recursion depth;
`none` means the fuel ran out (proved impossible with fuel above the variable
count, `DPLLgo_total`).  The assignment returned by a failed first branch is
threaded into the second branch, exactly as the shared Go map is. -/
def DPLLgo : Nat → List (List Int) → Assgn → Option (Bool × Assgn)
  | 0, _, _ => none
  | fuel+1, cnf, a =>
    let r := UnitPropagation cnf a
    if r.2.2 = false then some (false, r.2.1)
    else
      let p := PureLiteralElimination r.1 r.2.1
      if p.1 = [] then some (true, p.2)
      else
        let v := selectVar p.1
        match DPLLgo fuel (assign p.1 v true) (insertA p.2 v true) with
        | none => none
        | some (true, a1) => some (true, a1)
        | some (false, a1) => DPLLgo fuel (assign p.1 v false) (insertA a1 v false)

/-- The set of distinct variables (literal magnitudes) of a formula. -/
def vars (cnf : List (List Int)) : Finset Int := (cnf.flatten.map abs).toFinset

/-- The Go function DPLL at adequate fuel: one more than the number of
distinct variables of the formula. -/
def DPLL (cnf : List (List Int)) (a : Assgn) : Option (Bool × Assgn) :=
  DPLLgo ((vars cnf).card + 1) cnf a

/-- The inner loop of the Go function CompleteAssignment, over one clause. -/
def completeClause : List Int → Assgn → Assgn
  | [], a => a
  | l :: rest, a =>
    completeClause rest
      (match a (abs l) with
       | none => insertA a (abs l) true
       | some _ => a)

/-- The Go function CompleteAssignment: give every variable of the formula
that is missing from the map the default value true. -/
def CompleteAssignment : List (List Int) → Assgn → Assgn
  | [], a => a
  | c :: rest, a => CompleteAssignment rest (completeClause c a)

/-- Truth of a literal under a partial assignment (false when unassigned). -/
def evalLitA (a : Assgn) (l : Int) : Bool :=
  match a (abs l) with
  | some b => if 0 < l then b else !b
  | none => false

/-- Truth of a literal under a total valuation. -/
def evalLitW (w : Int → Bool) (l : Int) : Bool :=
  if 0 < l then w (abs l) else !(w (abs l))

/-- A total valuation satisfies a formula when every clause has a true
literal. -/
def satW (w : Int → Bool) (cnf : List (List Int)) : Prop :=
  ∀ c ∈ cnf, ∃ l ∈ c, evalLitW w l = true

/-- Interface precondition: every literal of the formula is nonzero. -/
def litsNZ (cnf : List (List Int)) : Prop :=
  ∀ c ∈ cnf, ∀ l ∈ c, l ≠ 0

theorem abs_eq_mabs (x : Int) : abs x = |x| := by
  unfold abs
  split
  · exact (abs_of_neg (by omega)).symm
  · exact (abs_of_nonneg (by omega)).symm

theorem abs_nonneg0 (x : Int) : 0 ≤ abs x := by
  rw [abs_eq_mabs]; exact abs_nonneg x

theorem abs_abs0 (x : Int) : abs (abs x) = abs x := by
  simp [abs_eq_mabs, abs_abs]

theorem abs_eq_abs_iff (x y : Int) : abs x = abs y ↔ x = y ∨ x = -y := by
  rw [abs_eq_mabs, abs_eq_mabs]; exact abs_eq_abs

theorem abs_pos_of_ne (x : Int) (h : x ≠ 0) : 0 < abs x := by
  rw [abs_eq_mabs]; exact abs_pos.mpr h

theorem tLit_abs (u : Int) : tLit (abs u) (decide (0 < u)) = u := by
  unfold tLit abs
  by_cases h : 0 < u <;> simp [h] <;> omega

theorem abs_tLit (v : Int) (b : Bool) (h : 0 ≤ v) : abs (tLit v b) = v := by
  unfold tLit abs
  cases b <;> simp <;> omega

theorem cond_iff_tLit (l v : Int) (b : Bool) :
    ((l = v ∧ b = true) ∨ (l = -v ∧ ¬(b = true))) ↔ l = tLit v b := by
  cases b <;> simp [tLit]

theorem assignClause_eq (v : Int) (b : Bool) (c : List Int) :
    assignClause v b c = if tLit v b ∈ c then none
      else some (c.filter (fun l => decide (¬(l = v ∨ l = -v)))) := by
  induction c with
  | nil => simp [assignClause]
  | cons l rest ih =>
    rw [assignClause]
    by_cases h1 : l = tLit v b
    · rw [if_pos]
      · rw [if_pos (by rw [← h1]; exact List.mem_cons_self l rest)]
      · exact (cond_iff_tLit l v b).mpr h1
    · rw [if_neg ((not_congr (cond_iff_tLit l v b)).mpr h1)]
      by_cases h2 : l ≠ v ∧ l ≠ -v
      · rw [if_pos h2, ih]
        by_cases h3 : tLit v b ∈ rest
        · simp [h3]
        · have h4 : tLit v b ∉ l :: rest := by
            intro hm
            rcases List.mem_cons.mp hm with h | h
            · exact h1 h.symm
            · exact h3 h
          simp only [if_neg h3, if_neg h4, Option.map_some, List.filter_cons]
          have : (decide (¬(l = v ∨ l = -v))) = true := by
            simp only [decide_eq_true_eq]
            tauto
          simp only [this]
          simp
      · rw [if_neg h2, ih]
        have h4 : (tLit v b ∈ l :: rest) ↔ tLit v b ∈ rest := by
          constructor
          · intro hm
            rcases List.mem_cons.mp hm with h | h
            · exact absurd h.symm h1
            · exact h
          · exact fun h => List.mem_cons_of_mem l h
        by_cases h3 : tLit v b ∈ rest
        · simp [h3, h4]
        · simp only [if_neg h3, if_neg ((not_congr h4).mpr h3), List.filter_cons]
          have : (decide (¬(l = v ∨ l = -v))) = false := by
            simp only [decide_eq_false_iff_not, not_not]
            tauto
          simp only [this]
          simp

/-- Characterization of Go assign: drop the clauses containing the satisfied
literal, and remove the occurrences of the variable from the rest. -/
theorem assign_eq (cnf : List (List Int)) (v : Int) (b : Bool) :
    assign cnf v b = (cnf.filter (fun c => decide (tLit v b ∉ c))).map
      (fun c => c.filter (fun l => decide (¬(l = v ∨ l = -v)))) := by
  induction cnf with
  | nil => rfl
  | cons c rest ih =>
    rw [assign, List.filterMap_cons, assignClause_eq]
    by_cases h : tLit v b ∈ c
    · simp only [if_pos h, List.filter_cons, decide_eq_true_eq]
      rw [if_neg (by simp [h])]
      exact ih
    · simp only [if_neg h, List.filter_cons]
      rw [if_pos (by simp [h]), List.map_cons]
      rw [← ih]
      rfl

theorem mem_assign_of_mem (cnf : List (List Int)) (v : Int) (b : Bool) (c : List Int)
    (hc : c ∈ cnf) (ht : tLit v b ∉ c) :
    c.filter (fun l => decide (¬(l = v ∨ l = -v))) ∈ assign cnf v b := by
  rw [assign_eq]
  exact List.mem_map_of_mem _ (List.mem_filter.mpr ⟨hc, by simp [ht]⟩)

theorem of_mem_assign (cnf : List (List Int)) (v : Int) (b : Bool) (c' : List Int)
    (h : c' ∈ assign cnf v b) :
    ∃ c ∈ cnf, tLit v b ∉ c ∧ c' = c.filter (fun l => decide (¬(l = v ∨ l = -v))) := by
  rw [assign_eq] at h
  rcases List.mem_map.mp h with ⟨c, hc, hval⟩
  rcases List.mem_filter.mp hc with ⟨hcc, hpred⟩
  exact ⟨c, hcc, by simpa using hpred, hval.symm⟩

theorem lit_of_mem_assign (cnf : List (List Int)) (v : Int) (b : Bool) (c' : List Int)
    (h : c' ∈ assign cnf v b) (l : Int) (hl : l ∈ c') :
    (∃ c ∈ cnf, l ∈ c) ∧ l ≠ v ∧ l ≠ -v := by
  rcases of_mem_assign cnf v b c' h with ⟨c, hc, _, hval⟩
  subst hval
  rcases List.mem_filter.mp hl with ⟨hlc, hpred⟩
  refine ⟨⟨c, hc, hlc⟩, ?_⟩
  simpa [not_or] using hpred

theorem litsNZ_assign (cnf : List (List Int)) (v : Int) (b : Bool) (h : litsNZ cnf) :
    litsNZ (assign cnf v b) := by
  intro c' hc' l hl
  rcases lit_of_mem_assign cnf v b c' hc' l hl with ⟨⟨c, hc, hlc⟩, _⟩
  exact h c hc l hlc

theorem mem_vars_iff (cnf : List (List Int)) (x : Int) :
    x ∈ vars cnf ↔ ∃ c ∈ cnf, ∃ l ∈ c, abs l = x := by
  unfold vars
  rw [List.mem_toFinset, List.mem_map]
  constructor
  · rintro ⟨l, hl, hx⟩
    rcases List.mem_flatten.mp hl with ⟨c, hc, hlc⟩
    exact ⟨c, hc, l, hlc, hx⟩
  · rintro ⟨c, hc, l, hlc, hx⟩
    exact ⟨l, List.mem_flatten.mpr ⟨c, hc, hlc⟩, hx⟩

theorem vars_assign_subset (cnf : List (List Int)) (v : Int) (b : Bool) :
    vars (assign cnf v b) ⊆ vars cnf \ {abs v} := by
  intro x hx
  rcases (mem_vars_iff _ x).mp hx with ⟨c', hc', l, hl, hxl⟩
  rcases lit_of_mem_assign cnf v b c' hc' l hl with ⟨⟨c, hc, hlc⟩, hne1, hne2⟩
  refine Finset.mem_sdiff.mpr ⟨(mem_vars_iff _ x).mpr ⟨c, hc, l, hlc, hxl⟩, ?_⟩
  simp only [Finset.mem_singleton]
  intro hcontra
  rcases (abs_eq_abs_iff l v).mp (hxl.trans hcontra ▸ rfl) with h | h
  · exact hne1 h
  · exact hne2 h

theorem vars_mono_of_clauses_sub (cnf' cnf : List (List Int))
    (h : ∀ c ∈ cnf', c ∈ cnf) : vars cnf' ⊆ vars cnf := by
  intro x hx
  rcases (mem_vars_iff _ x).mp hx with ⟨c, hc, l, hl, hxl⟩
  exact (mem_vars_iff _ x).mpr ⟨c, h c hc, l, hl, hxl⟩

theorem nil_mem_assign (cnf : List (List Int)) (v : Int) (b : Bool) (h : [] ∈ cnf) :
    [] ∈ assign cnf v b := by
  have := mem_assign_of_mem cnf v b [] h (by simp)
  simpa using this

theorem length_assign_le (cnf : List (List Int)) (v : Int) (b : Bool) :
    (assign cnf v b).length ≤ cnf.length :=
  List.length_filterMap_le _ _

theorem length_assign_lt (cnf : List (List Int)) (v : Int) (b : Bool)
    (c : List Int) (hc : c ∈ cnf) (ht : tLit v b ∈ c) :
    (assign cnf v b).length < cnf.length := by
  induction cnf with
  | nil => cases hc
  | cons c0 rest ih =>
    rw [assign, List.filterMap_cons]
    rcases List.mem_cons.mp hc with h | h
    · subst h
      rw [assignClause_eq, if_pos ht]
      exact Nat.lt_succ_of_le (length_assign_le rest v b)
    · cases hval : assignClause v b c0 with
      | none => exact Nat.lt_succ_of_lt (ih h)
      | some c0' => simpa using Nat.succ_lt_succ (ih h)

theorem findUnit_eq_none_iff (cnf : List (List Int)) :
    findUnit cnf = none ↔ ∀ c ∈ cnf, c.length ≠ 1 := by
  induction cnf with
  | nil => simp [findUnit]
  | cons c rest ih =>
    rcases c with _ | ⟨l1, _ | ⟨l2, tail⟩⟩
    · rw [show findUnit ([] :: rest) = findUnit rest from rfl, ih]
      simp
    · rw [show findUnit ([l1] :: rest) = some l1 from rfl]
      simp
    · rw [show findUnit ((l1 :: l2 :: tail) :: rest) = findUnit rest from rfl, ih]
      simp

theorem findUnit_some_mem (cnf : List (List Int)) (u : Int)
    (h : findUnit cnf = some u) : [u] ∈ cnf := by
  induction cnf with
  | nil => cases h
  | cons c rest ih =>
    rcases c with _ | ⟨l1, _ | ⟨l2, tail⟩⟩
    · exact List.mem_cons_of_mem _ (ih h)
    · rw [show findUnit ([l1] :: rest) = some l1 from rfl] at h
      rw [show u = l1 from (Option.some_injective _ h).symm]
      exact List.mem_cons_self _ _
    · exact List.mem_cons_of_mem _ (ih h)

theorem UPgo_vars_subset (fuel : Nat) (cnf : List (List Int)) (a : Assgn) :
    vars (UPgo fuel cnf a).1 ⊆ vars cnf := by
  induction fuel generalizing cnf a with
  | zero => rw [UPgo]
  | succ n ih =>
    rw [UPgo]
    cases h : findUnit cnf with
    | none => exact subset_rfl
    | some u =>
      exact (ih _ _).trans ((vars_assign_subset _ _ _).trans Finset.sdiff_subset)

theorem UPgo_frame (fuel : Nat) (cnf : List (List Int)) (a : Assgn) (x : Int)
    (hx : x ∉ vars cnf) : (UPgo fuel cnf a).2 x = a x := by
  induction fuel generalizing cnf a with
  | zero => rw [UPgo]
  | succ n ih =>
    rw [UPgo]
    cases h : findUnit cnf with
    | none => rfl
    | some u =>
      have hu : Solver.abs u ∈ vars cnf :=
        (mem_vars_iff _ _).mpr ⟨[u], findUnit_some_mem cnf u h, u, List.mem_cons_self _ _, rfl⟩
      have hxu : x ≠ Solver.abs u := fun hc => hx (hc ▸ hu)
      have hx2 : x ∉ vars (assign cnf (Solver.abs u) (decide (0 < u))) :=
        fun hc => hx (Finset.mem_sdiff.mp (vars_assign_subset _ _ _ hc)).1
      rw [ih _ _ hx2]
      unfold insertA
      rw [if_neg hxu]

theorem UPgo_no_unit (fuel : Nat) (cnf : List (List Int)) (a : Assgn)
    (h : cnf.length < fuel) : findUnit (UPgo fuel cnf a).1 = none := by
  induction fuel generalizing cnf a with
  | zero => omega
  | succ n ih =>
    rw [UPgo]
    cases hu : findUnit cnf with
    | none => exact hu
    | some u =>
      have hmem := findUnit_some_mem cnf u hu
      have ht : tLit (Solver.abs u) (decide (0 < u)) ∈ [u] := by
        rw [tLit_abs]; exact List.mem_cons_self _ _
      have hlt := length_assign_lt cnf (Solver.abs u) (decide (0 < u)) [u] hmem ht
      exact ih _ _ (by omega)

theorem UPgo_nil_mem (fuel : Nat) (cnf : List (List Int)) (a : Assgn)
    (h : [] ∈ cnf) : [] ∈ (UPgo fuel cnf a).1 := by
  induction fuel generalizing cnf a with
  | zero => rw [UPgo]; exact h
  | succ n ih =>
    rw [UPgo]
    cases hu : findUnit cnf with
    | none => exact h
    | some u => exact ih _ _ (nil_mem_assign _ _ _ h)

theorem litsNZ_UPgo (fuel : Nat) (cnf : List (List Int)) (a : Assgn)
    (h : litsNZ cnf) : litsNZ (UPgo fuel cnf a).1 := by
  induction fuel generalizing cnf a with
  | zero => rw [UPgo]; exact h
  | succ n ih =>
    rw [UPgo]
    cases hu : findUnit cnf with
    | none => exact h
    | some u => exact ih _ _ (litsNZ_assign _ _ _ h)

/-- Lifting satisfaction through one substitution step: if the satisfied
literal evaluates to true and every simplified clause is satisfied, then every
original clause is satisfied. -/
theorem assign_lift_gen (cnf : List (List Int)) (v : Int) (b : Bool) (E : Int → Bool)
    (ht : E (tLit v b) = true)
    (hs : ∀ c' ∈ assign cnf v b, ∃ l ∈ c', E l = true) :
    ∀ c ∈ cnf, ∃ l ∈ c, E l = true := by
  intro c hc
  by_cases hmem : tLit v b ∈ c
  · exact ⟨_, hmem, ht⟩
  · rcases hs _ (mem_assign_of_mem cnf v b c hc hmem) with ⟨l, hl, hE⟩
    exact ⟨l, (List.mem_filter.mp hl).1, hE⟩

theorem evalLitA_of_lookup (A : Assgn) (u : Int)
    (h : A (Solver.abs u) = some (decide (0 < u))) : evalLitA A u = true := by
  unfold evalLitA
  rw [h]
  by_cases h0 : 0 < u <;> simp [h0]

theorem UPgo_lift (fuel : Nat) (cnf : List (List Int)) (a : Assgn) (A : Assgn)
    (hA : ∀ x, x ∉ vars (UPgo fuel cnf a).1 → A x = (UPgo fuel cnf a).2 x)
    (hs : ∀ c ∈ (UPgo fuel cnf a).1, ∃ l ∈ c, evalLitA A l = true) :
    ∀ c ∈ cnf, ∃ l ∈ c, evalLitA A l = true := by
  induction fuel generalizing cnf a with
  | zero => rw [UPgo] at hs; exact hs
  | succ n ih =>
    rw [UPgo] at hA hs
    cases hu : findUnit cnf with
    | none => rw [hu] at hs; exact hs
    | some u =>
      rw [hu] at hA hs
      have habs : Solver.abs (Solver.abs u) = Solver.abs u := abs_abs0 u
      have hnotin : Solver.abs u ∉
          vars (UPgo n (assign cnf (Solver.abs u) (decide (0 < u)))
            (insertA a (Solver.abs u) (decide (0 < u)))).1 := by
        intro hc
        have h2 := (vars_assign_subset cnf (Solver.abs u) (decide (0 < u)))
          (UPgo_vars_subset _ _ _ hc)
        rw [habs] at h2
        exact (Finset.mem_sdiff.mp h2).2 (Finset.mem_singleton_self _)
      have hnotin2 : Solver.abs u ∉ vars (assign cnf (Solver.abs u) (decide (0 < u))) := by
        intro hc
        have h2 := vars_assign_subset cnf (Solver.abs u) (decide (0 < u)) hc
        rw [habs] at h2
        exact (Finset.mem_sdiff.mp h2).2 (Finset.mem_singleton_self _)
      have hval : A (Solver.abs u) = some (decide (0 < u)) := by
        rw [hA _ hnotin, UPgo_frame _ _ _ _ hnotin2]
        unfold insertA
        rw [if_pos rfl]
      have ht : evalLitA A (tLit (Solver.abs u) (decide (0 < u))) = true := by
        rw [tLit_abs]
        exact evalLitA_of_lookup A u hval
      exact assign_lift_gen _ _ _ _ ht (ih _ _ hA hs)

theorem abs_neg0 (x : Int) : Solver.abs (-x) = Solver.abs x := by
  rw [abs_eq_mabs, abs_eq_mabs, abs_neg]

theorem abs_of_nonneg0 (x : Int) (h : 0 ≤ x) : Solver.abs x = x := by
  rw [abs_eq_mabs]; exact abs_of_nonneg h

theorem abs_pair (x l : Int) : (x = Solver.abs l ∨ x = -Solver.abs l) ↔ (x = l ∨ x = -l) := by
  unfold Solver.abs
  by_cases hl : l < 0
  · rw [if_pos hl]; omega
  · rw [if_neg hl]

theorem countLit_zero_not_mem (cnf0 : List (List Int)) (m : Int)
    (h : countLit cnf0 m = 0) (c : List Int) (hc : c ∈ cnf0) : m ∉ c := by
  intro hm
  exact (List.count_eq_zero.mp h) (List.mem_flatten.mpr ⟨c, hc, hm⟩)

theorem countLit_pos_mem (cnf0 : List (List Int)) (l : Int)
    (h : 0 < countLit cnf0 l) : ∃ c ∈ cnf0, l ∈ c :=
  List.mem_flatten.mp (List.count_pos_iff.mp h)

theorem pureP_spec (cnf0 : List (List Int)) (l : Int) (h : pureP cnf0 l = true) :
    0 < countLit cnf0 l ∧ countLit cnf0 (-l) = 0 := by
  simpa [pureP] using h

/-- Substituting a literal whose negation does not occur only drops the
clauses that contain it, leaving every kept clause unchanged. -/
theorem assign_pure (cnf : List (List Int)) (l : Int)
    (h : ∀ c ∈ cnf, -l ∉ c) :
    assign cnf (Solver.abs l) (decide (0 < l)) = cnf.filter (fun c => decide (l ∉ c)) := by
  rw [assign_eq, tLit_abs]
  have hid : ∀ c ∈ cnf.filter (fun c => decide (l ∉ c)),
      c.filter (fun x => decide (¬(x = Solver.abs l ∨ x = -Solver.abs l))) = c := by
    intro c hc
    rcases List.mem_filter.mp hc with ⟨hcc, hpred⟩
    have hl : l ∉ c := by simpa using hpred
    apply List.filter_eq_self.mpr
    intro x hx
    simp only [decide_eq_true_eq]
    rw [abs_pair]
    rintro (hx1 | hx1)
    · exact hl (hx1 ▸ hx)
    · exact h c hcc (hx1 ▸ hx)
  rw [List.map_congr_left hid]
  simp

theorem PLEgo_vars_subset (cnf0 : List (List Int)) (order : List Int)
    (cnf : List (List Int)) (a : Assgn) :
    vars (PLEgo cnf0 order cnf a).1 ⊆ vars cnf := by
  induction order generalizing cnf a with
  | nil => rw [PLEgo]
  | cons l order ih =>
    rw [PLEgo]
    by_cases hp : pureP cnf0 l
    · rw [if_pos hp]
      exact (ih _ _).trans ((vars_assign_subset _ _ _).trans Finset.sdiff_subset)
    · rw [if_neg hp]
      exact ih _ _

theorem PLEgo_frame (cnf0 : List (List Int)) (order : List Int)
    (cnf : List (List Int)) (a : Assgn) (x : Int) (hx : x ∉ vars cnf0) :
    (PLEgo cnf0 order cnf a).2 x = a x := by
  induction order generalizing cnf a with
  | nil => rw [PLEgo]
  | cons l order ih =>
    rw [PLEgo]
    by_cases hp : pureP cnf0 l
    · rw [if_pos hp, ih]
      have hmem : Solver.abs l ∈ vars cnf0 := by
        rcases countLit_pos_mem cnf0 l (pureP_spec cnf0 l hp).1 with ⟨c, hc, hl⟩
        exact (mem_vars_iff _ _).mpr ⟨c, hc, l, hl, rfl⟩
      have hxl : x ≠ Solver.abs l := fun hc => hx (hc ▸ hmem)
      unfold insertA
      rw [if_neg hxl]
    · rw [if_neg hp]
      exact ih _ _

theorem PLEgo_lookup_stable (cnf0 : List (List Int)) (order : List Int)
    (cnf : List (List Int)) (a : Assgn) (x : Int) (bv : Bool)
    (ha : a x = some bv)
    (hord : ∀ l ∈ order, pureP cnf0 l = true → Solver.abs l = x → decide (0 < l) = bv) :
    (PLEgo cnf0 order cnf a).2 x = some bv := by
  induction order generalizing cnf a with
  | nil => rw [PLEgo]; exact ha
  | cons l order ih =>
    rw [PLEgo]
    by_cases hp : pureP cnf0 l
    · rw [if_pos hp]
      apply ih
      · unfold insertA
        by_cases hxl : x = Solver.abs l
        · rw [if_pos hxl, hord l (List.mem_cons_self _ _) hp hxl.symm]
        · rw [if_neg hxl]; exact ha
      · exact fun m hm => hord m (List.mem_cons_of_mem _ hm)
    · rw [if_neg hp]
      exact ih _ _ ha (fun m hm => hord m (List.mem_cons_of_mem _ hm))

theorem PLEgo_clauses_sub (cnf0 : List (List Int)) (order : List Int)
    (cnf : List (List Int)) (a : Assgn) (hsub : ∀ c ∈ cnf, c ∈ cnf0) :
    ∀ c ∈ (PLEgo cnf0 order cnf a).1, c ∈ cnf := by
  induction order generalizing cnf a with
  | nil => rw [PLEgo]; exact fun c hc => hc
  | cons l order ih =>
    rw [PLEgo]
    by_cases hp : pureP cnf0 l
    · rw [if_pos hp]
      have hneg : ∀ c ∈ cnf, -l ∉ c := fun c hc =>
        countLit_zero_not_mem cnf0 (-l) (pureP_spec cnf0 l hp).2 c (hsub c hc)
      rw [assign_pure cnf l hneg]
      intro c hc
      have hsub2 : ∀ c ∈ cnf.filter (fun c => decide (l ∉ c)), c ∈ cnf0 :=
        fun c hc => hsub c (List.mem_filter.mp hc).1
      exact (List.mem_filter.mp (ih _ _ hsub2 c hc)).1
    · rw [if_neg hp]
      exact ih _ _ hsub

theorem PLEgo_lift (cnf0 : List (List Int)) (order : List Int)
    (cnf : List (List Int)) (a : Assgn) (A : Assgn)
    (hsub : ∀ c ∈ cnf, c ∈ cnf0)
    (hA : ∀ x, x ∉ vars (PLEgo cnf0 order cnf a).1 → A x = (PLEgo cnf0 order cnf a).2 x)
    (hs : ∀ c ∈ (PLEgo cnf0 order cnf a).1, ∃ m ∈ c, evalLitA A m = true) :
    ∀ c ∈ cnf, ∃ m ∈ c, evalLitA A m = true := by
  induction order generalizing cnf a with
  | nil => rw [PLEgo] at hs; exact hs
  | cons l order ih =>
    rw [PLEgo] at hA hs
    by_cases hp : pureP cnf0 l
    · rw [if_pos hp] at hA hs
      have hneg : ∀ c ∈ cnf, -l ∉ c := fun c hc =>
        countLit_zero_not_mem cnf0 (-l) (pureP_spec cnf0 l hp).2 c (hsub c hc)
      have hsub2 : ∀ c ∈ assign cnf (Solver.abs l) (decide (0 < l)), c ∈ cnf0 := by
        rw [assign_pure cnf l hneg]
        exact fun c hc => hsub c (List.mem_filter.mp hc).1
      have habs : Solver.abs (Solver.abs l) = Solver.abs l := abs_abs0 l
      have hnotin : Solver.abs l ∉
          vars (PLEgo cnf0 order (assign cnf (Solver.abs l) (decide (0 < l)))
            (insertA a (Solver.abs l) (decide (0 < l)))).1 := by
        intro hc
        have h2 := (vars_assign_subset cnf (Solver.abs l) (decide (0 < l)))
          (PLEgo_vars_subset _ _ _ _ hc)
        rw [habs] at h2
        exact (Finset.mem_sdiff.mp h2).2 (Finset.mem_singleton_self _)
      have hval : A (Solver.abs l) = some (decide (0 < l)) := by
        rw [hA _ hnotin]
        apply PLEgo_lookup_stable
        · unfold insertA
          rw [if_pos rfl]
        · intro m hm hpm habsm
          rcases (abs_eq_abs_iff m l).mp habsm with h | h
          · rw [h]
          · exfalso
            have h1 := (pureP_spec cnf0 l hp).2
            have h2 := (pureP_spec cnf0 m hpm).1
            rw [h] at h2
            omega
      have ht : evalLitA A (tLit (Solver.abs l) (decide (0 < l))) = true := by
        rw [tLit_abs]
        exact evalLitA_of_lookup A l hval
      exact assign_lift_gen _ _ _ _ ht (ih _ _ hsub2 hA hs)
    · rw [if_neg hp] at hA hs
      exact ih _ _ hsub hA hs

/-- A valuation that satisfies the formula still satisfies the formula
simplified at the value the valuation itself gives the variable. -/
theorem satW_assign (cnf : List (List Int)) (v : Int) (hv : 0 ≤ v) (w : Int → Bool)
    (hw : satW w cnf) : satW w (assign cnf v (w v)) := by
  intro c' hc'
  rcases of_mem_assign cnf v (w v) c' hc' with ⟨c, hc, htnot, hval⟩
  rcases hw c hc with ⟨l0, hl0, hE⟩
  have habsv : Solver.abs v = v := abs_of_nonneg0 v hv
  have hpred : ¬(l0 = v ∨ l0 = -v) := by
    intro hor
    by_cases h0 : 0 < v
    · cases hb : w v with
      | true =>
        rcases hor with h | h
        · exact htnot (by rw [hb]; simpa [tLit] using h ▸ hl0)
        · rw [h] at hE
          unfold evalLitW at hE
          rw [if_neg (by omega), abs_neg0, habsv, hb] at hE
          simp at hE
      | false =>
        rcases hor with h | h
        · rw [h] at hE
          unfold evalLitW at hE
          rw [if_pos h0, habsv, hb] at hE
          cases hE
        · exact htnot (by rw [hb]; simpa [tLit] using h ▸ hl0)
    · have hv0 : v = 0 := by omega
      subst hv0
      have hl00 : l0 = 0 := by rcases hor with h | h <;> omega
      apply htnot
      have ht0 : tLit 0 (w 0) = 0 := by cases w 0 <;> simp [tLit]
      rw [ht0, ← hl00]
      exact hl0
  rw [hval]
  exact ⟨l0, List.mem_filter.mpr ⟨hl0, by simpa using hpred⟩, hE⟩

/-- Flipping the valuation of a pure literal to make it true cannot falsify a
formula in which its negation never occurs. -/
theorem satW_update_pure (cnf : List (List Int)) (l : Int)
    (hneg : ∀ c ∈ cnf, -l ∉ c) (w : Int → Bool) (hw : satW w cnf) :
    satW (fun x => if x = Solver.abs l then decide (0 < l) else w x) cnf := by
  intro c hc
  by_cases hl : l ∈ c
  · refine ⟨l, hl, ?_⟩
    by_cases h0 : 0 < l <;> simp [evalLitW, h0]
  · rcases hw c hc with ⟨l0, hl0, hE⟩
    refine ⟨l0, hl0, ?_⟩
    have hne : Solver.abs l0 ≠ Solver.abs l := by
      intro hc2
      rcases (abs_eq_abs_iff l0 l).mp hc2 with h | h
      · exact hl (h ▸ hl0)
      · exact hneg c hc (h ▸ hl0)
    have happ : (fun x => if x = Solver.abs l then decide (0 < l) else w x) (Solver.abs l0)
        = w (Solver.abs l0) := by simp [hne]
    unfold evalLitW at hE ⊢
    rw [happ]
    exact hE

theorem UPgo_completeW (fuel : Nat) (cnf : List (List Int)) (a : Assgn) (w : Int → Bool)
    (hw : satW w cnf) : satW w (UPgo fuel cnf a).1 := by
  induction fuel generalizing cnf a with
  | zero => rw [UPgo]; exact hw
  | succ n ih =>
    rw [UPgo]
    cases hu : findUnit cnf with
    | none => exact hw
    | some u =>
      apply ih
      have hmem := findUnit_some_mem cnf u hu
      rcases hw [u] hmem with ⟨l, hl, hE⟩
      have hlu : l = u := by simpa using hl
      subst hlu
      have hwv : w (Solver.abs l) = decide (0 < l) := by
        unfold evalLitW at hE
        by_cases h0 : 0 < l
        · rw [if_pos h0] at hE
          simp [h0, hE]
        · rw [if_neg h0] at hE
          simp only [Bool.not_eq_true'] at hE
          simp [h0, hE]
      rw [← hwv]
      exact satW_assign cnf (Solver.abs l) (abs_nonneg0 l) w hw

theorem PLEgo_completeW (cnf0 : List (List Int)) (order : List Int)
    (cnf : List (List Int)) (a : Assgn)
    (hsub : ∀ c ∈ cnf, c ∈ cnf0) (hex : ∃ w, satW w cnf) :
    ∃ w, satW w (PLEgo cnf0 order cnf a).1 := by
  induction order generalizing cnf a with
  | nil => rw [PLEgo]; exact hex
  | cons l order ih =>
    rw [PLEgo]
    by_cases hp : pureP cnf0 l
    · rw [if_pos hp]
      rcases hex with ⟨w, hw⟩
      have hneg : ∀ c ∈ cnf, -l ∉ c := fun c hc =>
        countLit_zero_not_mem cnf0 (-l) (pureP_spec cnf0 l hp).2 c (hsub c hc)
      have hw2 := satW_update_pure cnf l hneg w hw
      have hsub2 : ∀ c ∈ assign cnf (Solver.abs l) (decide (0 < l)), c ∈ cnf0 := by
        rw [assign_pure cnf l hneg]
        exact fun c hc => hsub c (List.mem_filter.mp hc).1
      apply ih _ _ hsub2
      have h3 := satW_assign cnf (Solver.abs l) (abs_nonneg0 l) _ hw2
      rw [if_pos rfl] at h3
      exact ⟨_, h3⟩
    · rw [if_neg hp]
      exact ih _ _ hsub hex

theorem selectVar_mem (cnf : List (List Int)) (h1 : cnf ≠ [])
    (h2 : ∀ c ∈ cnf, c ≠ []) : ∃ c ∈ cnf, ∃ l ∈ c, selectVar cnf = Solver.abs l := by
  rcases cnf with _ | ⟨c, rest⟩
  · exact absurd rfl h1
  · rcases c with _ | ⟨l, c0⟩
    · exact absurd rfl (h2 [] (List.mem_cons_self _ _))
    · exact ⟨l :: c0, List.mem_cons_self _ _, l, List.mem_cons_self _ _, rfl⟩

theorem UP_fst (cnf : List (List Int)) (a : Assgn) :
    (UnitPropagation cnf a).1 = (UPgo (cnf.length + 1) cnf a).1 := rfl

theorem UP_assgn (cnf : List (List Int)) (a : Assgn) :
    (UnitPropagation cnf a).2.1 = (UPgo (cnf.length + 1) cnf a).2 := rfl

theorem UP_flag_eq (cnf : List (List Int)) (a : Assgn) :
    (UnitPropagation cnf a).2.2 = !((UnitPropagation cnf a).1.any List.isEmpty) := rfl

theorem UP_vars_subset (cnf : List (List Int)) (a : Assgn) :
    vars (UnitPropagation cnf a).1 ⊆ vars cnf := by
  rw [UP_fst]; exact UPgo_vars_subset _ _ _

theorem UP_frame (cnf : List (List Int)) (a : Assgn) (x : Int) (hx : x ∉ vars cnf) :
    (UnitPropagation cnf a).2.1 x = a x := by
  rw [UP_assgn]; exact UPgo_frame _ _ _ _ hx

theorem UP_litsNZ (cnf : List (List Int)) (a : Assgn) (h : litsNZ cnf) :
    litsNZ (UnitPropagation cnf a).1 := by
  rw [UP_fst]; exact litsNZ_UPgo _ _ _ h

theorem UP_no_unit (cnf : List (List Int)) (a : Assgn) :
    ∀ c ∈ (UnitPropagation cnf a).1, c.length ≠ 1 := by
  rw [UP_fst]
  exact (findUnit_eq_none_iff _).mp (UPgo_no_unit _ _ _ (by omega))

theorem UP_flag_false_iff (cnf : List (List Int)) (a : Assgn) :
    (UnitPropagation cnf a).2.2 = false ↔ ∃ c ∈ (UnitPropagation cnf a).1, c = [] := by
  rw [UP_flag_eq]
  simp [List.any_eq_true, List.isEmpty_iff]

theorem UP_lift (cnf : List (List Int)) (a : Assgn) (A : Assgn)
    (hA : ∀ x, x ∉ vars (UnitPropagation cnf a).1 → A x = (UnitPropagation cnf a).2.1 x)
    (hs : ∀ c ∈ (UnitPropagation cnf a).1, ∃ m ∈ c, evalLitA A m = true) :
    ∀ c ∈ cnf, ∃ m ∈ c, evalLitA A m = true := by
  rw [UP_fst] at hA hs
  rw [UP_assgn] at hA
  exact UPgo_lift _ _ _ _ hA hs

theorem UP_completeW (cnf : List (List Int)) (a : Assgn) (w : Int → Bool)
    (hw : satW w cnf) : satW w (UnitPropagation cnf a).1 := by
  rw [UP_fst]; exact UPgo_completeW _ _ _ _ hw

theorem UP_nil (cnf : List (List Int)) (a : Assgn) (h : [] ∈ cnf) :
    [] ∈ (UnitPropagation cnf a).1 := by
  rw [UP_fst]; exact UPgo_nil_mem _ _ _ h

theorem PLE_def (cnf : List (List Int)) (a : Assgn) :
    PureLiteralElimination cnf a = PLEgo cnf (litOrder cnf) cnf a := rfl

theorem PLE_clauses_sub (cnf : List (List Int)) (a : Assgn) :
    ∀ c ∈ (PureLiteralElimination cnf a).1, c ∈ cnf := by
  rw [PLE_def]
  exact PLEgo_clauses_sub cnf _ cnf a (fun c hc => hc)

theorem PLE_vars_subset (cnf : List (List Int)) (a : Assgn) :
    vars (PureLiteralElimination cnf a).1 ⊆ vars cnf := by
  rw [PLE_def]
  exact PLEgo_vars_subset _ _ _ _

theorem PLE_frame (cnf : List (List Int)) (a : Assgn) (x : Int) (hx : x ∉ vars cnf) :
    (PureLiteralElimination cnf a).2 x = a x := by
  rw [PLE_def]
  exact PLEgo_frame _ _ _ _ _ hx

theorem PLE_litsNZ (cnf : List (List Int)) (a : Assgn) (h : litsNZ cnf) :
    litsNZ (PureLiteralElimination cnf a).1 :=
  fun c hc => h c (PLE_clauses_sub cnf a c hc)

theorem PLE_no_empty (cnf : List (List Int)) (a : Assgn) (h : ∀ c ∈ cnf, c ≠ []) :
    ∀ c ∈ (PureLiteralElimination cnf a).1, c ≠ [] :=
  fun c hc => h c (PLE_clauses_sub cnf a c hc)

theorem PLE_lift (cnf : List (List Int)) (a : Assgn) (A : Assgn)
    (hA : ∀ x, x ∉ vars (PureLiteralElimination cnf a).1 →
      A x = (PureLiteralElimination cnf a).2 x)
    (hs : ∀ c ∈ (PureLiteralElimination cnf a).1, ∃ m ∈ c, evalLitA A m = true) :
    ∀ c ∈ cnf, ∃ m ∈ c, evalLitA A m = true := by
  rw [PLE_def] at hA hs
  exact PLEgo_lift cnf _ cnf a A (fun c hc => hc) hA hs

theorem PLE_completeW (cnf : List (List Int)) (a : Assgn)
    (hex : ∃ w, satW w cnf) : ∃ w, satW w (PureLiteralElimination cnf a).1 := by
  rw [PLE_def]
  exact PLEgo_completeW cnf _ cnf a (fun c hc => hc) hex

theorem DPLLgo_frame (fuel : Nat) :
    ∀ (cnf : List (List Int)) (a : Assgn) (res : Bool) (a' : Assgn),
    DPLLgo fuel cnf a = some (res, a') → ∀ x, x ∉ vars cnf → a' x = a x := by
  induction fuel with
  | zero => intro cnf a res a' heq; cases heq
  | succ n ih =>
    intro cnf a res a' heq x hx
    rw [DPLLgo] at heq
    cases hflag : (UnitPropagation cnf a).2.2 with
    | false =>
      simp only [hflag, if_pos] at heq
      simp only [Option.some.injEq, Prod.mk.injEq] at heq
      rw [← heq.2]
      exact UP_frame cnf a x hx
    | true =>
      simp only [hflag] at heq
      rw [if_neg (by simp)] at heq
      set q := PureLiteralElimination (UnitPropagation cnf a).1 (UnitPropagation cnf a).2.1 with hqdef
      set v := selectVar q.1 with hvdef
      by_cases hple : q.1 = []
      · rw [if_pos hple] at heq
        simp only [Option.some.injEq, Prod.mk.injEq] at heq
        rw [← heq.2, hqdef]
        have hx1 : x ∉ vars (UnitPropagation cnf a).1 := fun hc => hx (UP_vars_subset cnf a hc)
        rw [PLE_frame _ _ x hx1]
        exact UP_frame cnf a x hx
      · rw [if_neg hple] at heq
        have hnoempty : ∀ c ∈ q.1, c ≠ [] := by
          rw [hqdef]
          apply PLE_no_empty
          intro c hc hcnil
          have hcontra : (UnitPropagation cnf a).2.2 = false :=
            (UP_flag_false_iff cnf a).mpr ⟨c, hc, hcnil⟩
          rw [hflag] at hcontra
          cases hcontra
        have hvmem : v ∈ vars q.1 := by
          rcases selectVar_mem q.1 hple hnoempty with ⟨c, hc, l, hl, hsel⟩
          rw [hvdef, hsel]
          exact (mem_vars_iff _ _).mpr ⟨c, hc, l, hl, rfl⟩
        have hxq : x ∉ vars q.1 := by
          intro hc
          apply hx
          apply UP_vars_subset cnf a
          rw [hqdef] at hc
          exact PLE_vars_subset _ _ hc
        have hxv : x ≠ v := fun hc => hxq (hc ▸ hvmem)
        have hxassignT : x ∉ vars (assign q.1 v true) :=
          fun hc => hxq (Finset.mem_sdiff.mp (vars_assign_subset _ _ _ hc)).1
        have hxassignF : x ∉ vars (assign q.1 v false) :=
          fun hc => hxq (Finset.mem_sdiff.mp (vars_assign_subset _ _ _ hc)).1
        have hbase : q.2 x = a x := by
          rw [hqdef]
          rw [PLE_frame _ _ x (fun hc => hx (UP_vars_subset cnf a hc))]
          exact UP_frame cnf a x hx
        cases hrec : DPLLgo n (assign q.1 v true) (insertA q.2 v true) with
        | none =>
          rw [hrec] at heq
          cases heq
        | some rb =>
          obtain ⟨b1, a1⟩ := rb
          cases b1 with
          | true =>
            rw [hrec] at heq
            simp only [Option.some.injEq, Prod.mk.injEq] at heq
            rw [← heq.2]
            rw [ih _ _ _ _ hrec x hxassignT]
            unfold insertA
            rw [if_neg hxv]
            exact hbase
          | false =>
            rw [hrec] at heq
            rw [ih _ _ _ _ heq x hxassignF]
            unfold insertA
            rw [if_neg hxv]
            rw [ih _ _ _ _ hrec x hxassignT]
            unfold insertA
            rw [if_neg hxv]
            exact hbase

theorem DPLLgo_sound (fuel : Nat) :
    ∀ (cnf : List (List Int)) (a : Assgn) (a' : Assgn),
    litsNZ cnf → DPLLgo fuel cnf a = some (true, a') →
    ∀ c ∈ cnf, ∃ m ∈ c, evalLitA a' m = true := by
  induction fuel with
  | zero => intro cnf a a' hnz heq; cases heq
  | succ n ih =>
    intro cnf a a' hnz heq
    rw [DPLLgo] at heq
    cases hflag : (UnitPropagation cnf a).2.2 with
    | false =>
      simp only [hflag, if_pos] at heq
      simp at heq
    | true =>
      simp only [hflag] at heq
      rw [if_neg (by simp)] at heq
      set q := PureLiteralElimination (UnitPropagation cnf a).1 (UnitPropagation cnf a).2.1 with hqdef
      set v := selectVar q.1 with hvdef
      have hnz1 : litsNZ (UnitPropagation cnf a).1 := UP_litsNZ cnf a hnz
      have hnzq : litsNZ q.1 := by rw [hqdef]; exact PLE_litsNZ _ _ hnz1
      by_cases hple : q.1 = []
      · rw [if_pos hple] at heq
        simp only [Option.some.injEq, Prod.mk.injEq] at heq
        have hsatq : ∀ c ∈ q.1, ∃ m ∈ c, evalLitA a' m = true := by
          rw [hple]
          intro c hc
          cases hc
        have hAq : ∀ x, x ∉ vars q.1 → a' x = q.2 x := by
          intro x hx
          rw [heq.2]
        have hsat1 : ∀ c ∈ (UnitPropagation cnf a).1, ∃ m ∈ c, evalLitA a' m = true := by
          apply PLE_lift _ _ a'
          · rw [← hqdef]
            exact hAq
          · rw [← hqdef]
            exact hsatq
        have hA0 : ∀ x, x ∉ vars (UnitPropagation cnf a).1 →
            a' x = (UnitPropagation cnf a).2.1 x := by
          intro x hx1
          have hxq2 : x ∉ vars q.1 := by
            intro hc
            apply hx1
            rw [hqdef] at hc
            exact PLE_vars_subset _ _ hc
          rw [hAq x hxq2, hqdef]
          exact PLE_frame _ _ x hx1
        exact UP_lift cnf a a' hA0 hsat1
      · rw [if_neg hple] at heq
        have hnoempty : ∀ c ∈ q.1, c ≠ [] := by
          rw [hqdef]
          apply PLE_no_empty
          intro c hc hcnil
          have hcontra : (UnitPropagation cnf a).2.2 = false :=
            (UP_flag_false_iff cnf a).mpr ⟨c, hc, hcnil⟩
          rw [hflag] at hcontra
          cases hcontra
        have hvmem : v ∈ vars q.1 := by
          rcases selectVar_mem q.1 hple hnoempty with ⟨c, hc, l, hl, hsel⟩
          rw [hvdef, hsel]
          exact (mem_vars_iff _ _).mpr ⟨c, hc, l, hl, rfl⟩
        have hvpos : 0 < v := by
          rcases selectVar_mem q.1 hple hnoempty with ⟨c, hc, l, hl, hsel⟩
          rw [hvdef, hsel]
          exact abs_pos_of_ne l (hnzq c hc l hl)
        have habsv : Solver.abs v = v := abs_of_nonneg0 v (le_of_lt hvpos)
        have hvnotinT : v ∉ vars (assign q.1 v true) := by
          intro hc
          have h2 := vars_assign_subset _ _ _ hc
          rw [habsv] at h2
          exact (Finset.mem_sdiff.mp h2).2 (Finset.mem_singleton_self _)
        have hvnotinF : v ∉ vars (assign q.1 v false) := by
          intro hc
          have h2 := vars_assign_subset _ _ _ hc
          rw [habsv] at h2
          exact (Finset.mem_sdiff.mp h2).2 (Finset.mem_singleton_self _)
        have hfinish : ∀ (A : Assgn), (∀ c ∈ q.1, ∃ m ∈ c, evalLitA A m = true) →
            (∀ x, x ∉ vars q.1 → A x = q.2 x) →
            ∀ c ∈ cnf, ∃ m ∈ c, evalLitA A m = true := by
          intro A hsatq hAq
          have hsat1 : ∀ c ∈ (UnitPropagation cnf a).1, ∃ m ∈ c, evalLitA A m = true := by
            apply PLE_lift _ _ A
            · rw [← hqdef]
              exact hAq
            · rw [← hqdef]
              exact hsatq
          have hA0 : ∀ x, x ∉ vars (UnitPropagation cnf a).1 →
              A x = (UnitPropagation cnf a).2.1 x := by
            intro x hx1
            have hxq2 : x ∉ vars q.1 := by
              intro hc
              apply hx1
              rw [hqdef] at hc
              exact PLE_vars_subset _ _ hc
            rw [hAq x hxq2, hqdef]
            exact PLE_frame _ _ x hx1
          exact UP_lift cnf a A hA0 hsat1
        cases hrec : DPLLgo n (assign q.1 v true) (insertA q.2 v true) with
        | none =>
          rw [hrec] at heq
          cases heq
        | some rb =>
          obtain ⟨b1, a1⟩ := rb
          cases b1 with
          | true =>
            rw [hrec] at heq
            simp only [Option.some.injEq, Prod.mk.injEq] at heq
            have hnzA : litsNZ (assign q.1 v true) := litsNZ_assign _ _ _ hnzq
            have hsatA := ih _ _ _ hnzA hrec
            rw [heq.2] at hsatA
            have hval : a' v = some true := by
              rw [← heq.2]
              rw [DPLLgo_frame n _ _ _ _ hrec v hvnotinT]
              unfold insertA
              rw [if_pos rfl]
            have ht : evalLitA a' (tLit v true) = true := by
              have htv : tLit v true = v := by simp [tLit]
              rw [htv]
              unfold evalLitA
              rw [habsv, hval]
              simp [hvpos]
            have hsatq : ∀ c ∈ q.1, ∃ m ∈ c, evalLitA a' m = true :=
              assign_lift_gen q.1 v true _ ht hsatA
            apply hfinish a' hsatq
            intro x hxq
            have hxv : x ≠ v := fun hc => hxq (hc ▸ hvmem)
            have hxT : x ∉ vars (assign q.1 v true) :=
              fun hc => hxq (Finset.mem_sdiff.mp (vars_assign_subset _ _ _ hc)).1
            rw [← heq.2, DPLLgo_frame n _ _ _ _ hrec x hxT]
            unfold insertA
            rw [if_neg hxv]
          | false =>
            rw [hrec] at heq
            have hnzF : litsNZ (assign q.1 v false) := litsNZ_assign _ _ _ hnzq
            have hsatF := ih _ _ _ hnzF heq
            have hval : a' v = some false := by
              rw [DPLLgo_frame n _ _ _ _ heq v hvnotinF]
              unfold insertA
              rw [if_pos rfl]
            have ht : evalLitA a' (tLit v false) = true := by
              have htv : tLit v false = -v := by simp [tLit]
              rw [htv]
              unfold evalLitA
              have habs2 : Solver.abs (-v) = v := by rw [abs_neg0, habsv]
              rw [habs2, hval]
              simp [show ¬(0 < -v) from by omega]
            have hsatq : ∀ c ∈ q.1, ∃ m ∈ c, evalLitA a' m = true :=
              assign_lift_gen q.1 v false _ ht hsatF
            apply hfinish a' hsatq
            intro x hxq
            have hxv : x ≠ v := fun hc => hxq (hc ▸ hvmem)
            have hxT : x ∉ vars (assign q.1 v true) :=
              fun hc => hxq (Finset.mem_sdiff.mp (vars_assign_subset _ _ _ hc)).1
            have hxF : x ∉ vars (assign q.1 v false) :=
              fun hc => hxq (Finset.mem_sdiff.mp (vars_assign_subset _ _ _ hc)).1
            rw [DPLLgo_frame n _ _ _ _ heq x hxF]
            unfold insertA
            rw [if_neg hxv]
            rw [DPLLgo_frame n _ _ _ _ hrec x hxT]
            unfold insertA
            rw [if_neg hxv]

theorem DPLLgo_total (fuel : Nat) :
    ∀ (cnf : List (List Int)) (a : Assgn), (vars cnf).card < fuel →
    ∃ r, DPLLgo fuel cnf a = some r := by
  induction fuel with
  | zero => intro cnf a hcard; omega
  | succ n ih =>
    intro cnf a hcard
    rw [DPLLgo]
    cases hflag : (UnitPropagation cnf a).2.2 with
    | false =>
      simp only [hflag, if_pos]
      exact ⟨_, rfl⟩
    | true =>
      simp only [hflag]
      rw [if_neg (by simp)]
      set q := PureLiteralElimination (UnitPropagation cnf a).1 (UnitPropagation cnf a).2.1 with hqdef
      set v := selectVar q.1 with hvdef
      by_cases hple : q.1 = []
      · rw [if_pos hple]
        exact ⟨_, rfl⟩
      · rw [if_neg hple]
        have hnoempty : ∀ c ∈ q.1, c ≠ [] := by
          rw [hqdef]
          apply PLE_no_empty
          intro c hc hcnil
          have hcontra : (UnitPropagation cnf a).2.2 = false :=
            (UP_flag_false_iff cnf a).mpr ⟨c, hc, hcnil⟩
          rw [hflag] at hcontra
          cases hcontra
        have hvmem : v ∈ vars q.1 := by
          rcases selectVar_mem q.1 hple hnoempty with ⟨c, hc, l, hl, hsel⟩
          rw [hvdef, hsel]
          exact (mem_vars_iff _ _).mpr ⟨c, hc, l, hl, rfl⟩
        have hqsub : vars q.1 ⊆ vars cnf := by
          rw [hqdef]
          exact (PLE_vars_subset _ _).trans (UP_vars_subset cnf a)
        have hcardlt : ∀ b : Bool, (vars (assign q.1 v b)).card < n := by
          intro b
          have h1 : vars (assign q.1 v b) ⊆ vars q.1 \ {Solver.abs v} :=
            vars_assign_subset _ _ _
          have h2 : vars q.1 \ {Solver.abs v} ⊆ vars q.1 := Finset.sdiff_subset
          have h3 : (vars (assign q.1 v b)).card ≤ (vars q.1 \ {Solver.abs v}).card :=
            Finset.card_le_card h1
          have habsv : Solver.abs v = v := by
            rcases selectVar_mem q.1 hple hnoempty with ⟨c, hc, l, hl, hsel⟩
            rw [hvdef, hsel]
            exact abs_abs0 l
          have h4 : (vars q.1 \ {Solver.abs v}).card < (vars q.1).card := by
            rw [habsv, Finset.sdiff_singleton_eq_erase]
            exact Finset.card_erase_lt_of_mem hvmem
          have h5 : (vars q.1).card ≤ (vars cnf).card := Finset.card_le_card hqsub
          omega
        rcases ih (assign q.1 v true) (insertA q.2 v true) (hcardlt true) with ⟨r1, hr1⟩
        rw [hr1]
        obtain ⟨b1, a1⟩ := r1
        cases b1 with
        | true => exact ⟨_, rfl⟩
        | false => exact ih (assign q.1 v false) (insertA a1 v false) (hcardlt false)

theorem DPLLgo_complete (fuel : Nat) :
    ∀ (cnf : List (List Int)) (a : Assgn) (a' : Assgn),
    DPLLgo fuel cnf a = some (false, a') → ∀ w : Int → Bool, ¬ satW w cnf := by
  induction fuel with
  | zero => intro cnf a a' heq; cases heq
  | succ n ih =>
    intro cnf a a' heq w hw
    rw [DPLLgo] at heq
    cases hflag : (UnitPropagation cnf a).2.2 with
    | false =>
      rcases (UP_flag_false_iff cnf a).mp hflag with ⟨c, hc, hcnil⟩
      have hsat1 := UP_completeW cnf a w hw
      rcases hsat1 c hc with ⟨m, hm, _⟩
      rw [hcnil] at hm
      cases hm
    | true =>
      simp only [hflag] at heq
      rw [if_neg (by simp)] at heq
      set q := PureLiteralElimination (UnitPropagation cnf a).1 (UnitPropagation cnf a).2.1 with hqdef
      set v := selectVar q.1 with hvdef
      by_cases hple : q.1 = []
      · rw [if_pos hple] at heq
        simp at heq
      · rw [if_neg hple] at heq
        have hnoempty : ∀ c ∈ q.1, c ≠ [] := by
          rw [hqdef]
          apply PLE_no_empty
          intro c hc hcnil
          have hcontra : (UnitPropagation cnf a).2.2 = false :=
            (UP_flag_false_iff cnf a).mpr ⟨c, hc, hcnil⟩
          rw [hflag] at hcontra
          cases hcontra
        have hvnonneg : 0 ≤ v := by
          rcases selectVar_mem q.1 hple hnoempty with ⟨c, hc, l, hl, hsel⟩
          rw [hvdef, hsel]
          exact abs_nonneg0 l
        have hsatq : ∃ w2, satW w2 q.1 := by
          rw [hqdef]
          apply PLE_completeW
          exact ⟨w, UP_completeW cnf a w hw⟩
        rcases hsatq with ⟨w2, hw2⟩
        have hsatassign := satW_assign q.1 v hvnonneg w2 hw2
        cases hrec : DPLLgo n (assign q.1 v true) (insertA q.2 v true) with
        | none =>
          rw [hrec] at heq
          cases heq
        | some rb =>
          obtain ⟨b1, a1⟩ := rb
          cases b1 with
          | true =>
            rw [hrec] at heq
            simp at heq
          | false =>
            rw [hrec] at heq
            cases hwv : w2 v with
            | true =>
              rw [hwv] at hsatassign
              exact ih _ _ _ hrec w2 hsatassign
            | false =>
              rw [hwv] at hsatassign
              exact ih _ _ _ heq w2 hsatassign

theorem completeClause_cons_none (l : Int) (rest : List Int) (a : Assgn)
    (h : a (Solver.abs l) = none) :
    completeClause (l :: rest) a = completeClause rest (insertA a (Solver.abs l) true) := by
  rw [completeClause, h]

theorem completeClause_cons_some (l : Int) (rest : List Int) (a : Assgn) (b0 : Bool)
    (h : a (Solver.abs l) = some b0) :
    completeClause (l :: rest) a = completeClause rest a := by
  rw [completeClause, h]

theorem completeClause_pres (c : List Int) : ∀ (a : Assgn) (x : Int) (bv : Bool),
    a x = some bv → completeClause c a x = some bv := by
  induction c with
  | nil =>
    intro a x bv h
    rw [completeClause]
    exact h
  | cons l rest ih =>
    intro a x bv h
    cases hl : a (Solver.abs l) with
    | none =>
      rw [completeClause_cons_none l rest a hl]
      apply ih
      unfold insertA
      by_cases hx : x = Solver.abs l
      · rw [← hx] at hl
        rw [hl] at h
        cases h
      · rw [if_neg hx]
        exact h
    | some b0 =>
      rw [completeClause_cons_some l rest a b0 hl]
      exact ih a x bv h

theorem completeClause_frame (c : List Int) : ∀ (a : Assgn) (x : Int),
    (∀ l ∈ c, Solver.abs l ≠ x) → completeClause c a x = a x := by
  induction c with
  | nil =>
    intro a x _
    rw [completeClause]
  | cons l rest ih =>
    intro a x h
    cases hl : a (Solver.abs l) with
    | none =>
      rw [completeClause_cons_none l rest a hl]
      rw [ih _ x (fun m hm => h m (List.mem_cons_of_mem _ hm))]
      unfold insertA
      rw [if_neg (fun hc => h l (List.mem_cons_self _ _) hc.symm)]
    | some b0 =>
      rw [completeClause_cons_some l rest a b0 hl]
      exact ih _ x (fun m hm => h m (List.mem_cons_of_mem _ hm))

theorem completeClause_none_true (c : List Int) : ∀ (a : Assgn) (x : Int),
    a x = none → (∃ l ∈ c, Solver.abs l = x) → completeClause c a x = some true := by
  induction c with
  | nil =>
    intro a x _ hex
    rcases hex with ⟨l, hl, _⟩
    cases hl
  | cons l rest ih =>
    intro a x hax hex
    by_cases hxl : Solver.abs l = x
    · have hl : a (Solver.abs l) = none := by rw [hxl]; exact hax
      rw [completeClause_cons_none l rest a hl]
      apply completeClause_pres
      unfold insertA
      rw [if_pos hxl.symm]
    · have hrest : ∃ m ∈ rest, Solver.abs m = x := by
        rcases hex with ⟨m, hm, hmx⟩
        rcases List.mem_cons.mp hm with h | h
        · exact absurd (h ▸ hmx) hxl
        · exact ⟨m, h, hmx⟩
      cases hl : a (Solver.abs l) with
      | none =>
        rw [completeClause_cons_none l rest a hl]
        apply ih _ x _ hrest
        unfold insertA
        rw [if_neg (fun hc => hxl hc.symm)]
        exact hax
      | some b0 =>
        rw [completeClause_cons_some l rest a b0 hl]
        exact ih _ x hax hrest

theorem CompleteAssignment_pres (cnf : List (List Int)) : ∀ (a : Assgn) (x : Int) (bv : Bool),
    a x = some bv → CompleteAssignment cnf a x = some bv := by
  induction cnf with
  | nil =>
    intro a x bv h
    rw [CompleteAssignment]
    exact h
  | cons c rest ih =>
    intro a x bv h
    rw [CompleteAssignment]
    exact ih _ x bv (completeClause_pres c a x bv h)

theorem CompleteAssignment_none_true (cnf : List (List Int)) : ∀ (a : Assgn) (x : Int),
    a x = none → (∃ c ∈ cnf, ∃ l ∈ c, Solver.abs l = x) →
    CompleteAssignment cnf a x = some true := by
  induction cnf with
  | nil =>
    intro a x _ hex
    rcases hex with ⟨c, hc, _⟩
    cases hc
  | cons c0 rest ih =>
    intro a x hax hex
    rw [CompleteAssignment]
    by_cases hc0 : ∃ l ∈ c0, Solver.abs l = x
    · exact CompleteAssignment_pres rest _ x true (completeClause_none_true c0 a x hax hc0)
    · have hrest : ∃ c ∈ rest, ∃ l ∈ c, Solver.abs l = x := by
        rcases hex with ⟨c, hc, l, hl, hlx⟩
        rcases List.mem_cons.mp hc with h | h
        · exact absurd ⟨l, h ▸ hl, hlx⟩ hc0
        · exact ⟨c, h, l, hl, hlx⟩
      apply ih _ x _ hrest
      rw [completeClause_frame c0 a x (fun l hl hlx => hc0 ⟨l, hl, hlx⟩)]
      exact hax

theorem evalLitA_CompleteAssignment (cnf : List (List Int)) (a : Assgn) (l : Int)
    (h : evalLitA a l = true) : evalLitA (CompleteAssignment cnf a) l = true := by
  unfold evalLitA at h ⊢
  cases hl : a (Solver.abs l) with
  | none =>
    rw [hl] at h
    cases h
  | some b =>
    rw [hl] at h
    rw [CompleteAssignment_pres cnf a (Solver.abs l) b hl]
    exact h

theorem tLit_or (v : Int) (b : Bool) : tLit v b = v ∨ tLit v b = -v := by
  cases b <;> simp [tLit]

theorem mem_filter_other (v1 v2 : Int) (b2 : Bool) (h1 : 0 ≤ v1) (h2 : 0 ≤ v2)
    (hne : v1 ≠ v2) (c : List Int) :
    (tLit v2 b2 ∈ c.filter (fun l => decide (¬(l = v1 ∨ l = -v1)))) ↔ tLit v2 b2 ∈ c := by
  rw [List.mem_filter]
  constructor
  · exact fun h => h.1
  · intro h
    refine ⟨h, ?_⟩
    simp only [decide_eq_true_eq]
    rcases tLit_or v2 b2 with ht | ht <;> rw [ht] <;> omega

theorem filter_pair_swap (v1 v2 : Int) (c : List Int) :
    (c.filter (fun l => decide (¬(l = v1 ∨ l = -v1)))).filter
        (fun l => decide (¬(l = v2 ∨ l = -v2))) =
      (c.filter (fun l => decide (¬(l = v2 ∨ l = -v2)))).filter
        (fun l => decide (¬(l = v1 ∨ l = -v1))) := by
  rw [List.filter_filter, List.filter_filter]
  apply List.filter_congr
  intro x _
  rw [Bool.and_comm]

theorem assignClause_comm (v1 v2 : Int) (b1 b2 : Bool) (h1 : 0 ≤ v1) (h2 : 0 ≤ v2)
    (hne : v1 ≠ v2) (c : List Int) :
    (assignClause v1 b1 c).bind (assignClause v2 b2) =
      (assignClause v2 b2 c).bind (assignClause v1 b1) := by
  rw [assignClause_eq v1 b1 c, assignClause_eq v2 b2 c]
  by_cases hc1 : tLit v1 b1 ∈ c <;> by_cases hc2 : tLit v2 b2 ∈ c
  · rw [if_pos hc1, if_pos hc2]
    rw [Option.none_bind, Option.none_bind]
  · rw [if_pos hc1, if_neg hc2]
    rw [Option.none_bind, Option.some_bind]
    rw [assignClause_eq]
    rw [if_pos ((mem_filter_other v2 v1 b1 h2 h1 (fun h => hne h.symm) c).mpr hc1)]
  · rw [if_neg hc1, if_pos hc2]
    rw [Option.none_bind, Option.some_bind]
    rw [assignClause_eq]
    rw [if_pos ((mem_filter_other v1 v2 b2 h1 h2 hne c).mpr hc2)]
  · rw [if_neg hc1, if_neg hc2]
    rw [Option.some_bind, Option.some_bind]
    rw [assignClause_eq, assignClause_eq]
    rw [if_neg (fun hc => hc2 ((mem_filter_other v1 v2 b2 h1 h2 hne c).mp hc))]
    rw [if_neg (fun hc => hc1 ((mem_filter_other v2 v1 b1 h2 h1 (fun h => hne h.symm) c).mp hc))]
    rw [filter_pair_swap]

theorem assign_comm (cnf : List (List Int)) (v1 v2 : Int) (b1 b2 : Bool)
    (h1 : 0 ≤ v1) (h2 : 0 ≤ v2) (hne : v1 ≠ v2) :
    assign (assign cnf v1 b1) v2 b2 = assign (assign cnf v2 b2) v1 b1 := by
  unfold assign
  rw [List.filterMap_filterMap, List.filterMap_filterMap]
  exact List.filterMap_congr
    (fun c _ => assignClause_comm v1 v2 b1 b2 h1 h2 hne c)

theorem insertA_comm (a : Assgn) (v1 v2 : Int) (b1 b2 : Bool) (hne : v1 ≠ v2) :
    insertA (insertA a v1 b1) v2 b2 = insertA (insertA a v2 b2) v1 b1 := by
  funext x
  unfold insertA
  by_cases hx2 : x = v2
  · rw [if_pos hx2, if_neg (fun hc : x = v1 => hne (hc ▸ hx2)), if_pos hx2]
  · rw [if_neg hx2]
    by_cases hx1 : x = v1
    · rw [if_pos hx1, if_pos hx1]
    · rw [if_neg hx1, if_neg hx1, if_neg hx2]

theorem PLEgo_swap (cnf0 : List (List Int)) (l1 l2 : Int) (order : List Int)
    (cnf : List (List Int)) (a : Assgn) :
    PLEgo cnf0 (l1 :: l2 :: order) cnf a = PLEgo cnf0 (l2 :: l1 :: order) cnf a := by
  by_cases hp1 : pureP cnf0 l1 <;> by_cases hp2 : pureP cnf0 l2
  · by_cases heq : l1 = l2
    · rw [heq]
    · have habsne : Solver.abs l1 ≠ Solver.abs l2 := by
        intro hc
        rcases (abs_eq_abs_iff l1 l2).mp hc with h | h
        · exact heq h
        · have c1 := (pureP_spec cnf0 l1 hp1).2
          have c2 := (pureP_spec cnf0 l2 hp2).1
          have hneg : -l1 = l2 := by omega
          rw [hneg] at c1
          omega
      rw [PLEgo, if_pos hp1, PLEgo, if_pos hp2]
      rw [PLEgo, if_pos hp2, PLEgo, if_pos hp1]
      rw [assign_comm cnf _ _ _ _ (abs_nonneg0 l1) (abs_nonneg0 l2) habsne]
      rw [insertA_comm a _ _ _ _ habsne]
  · rw [PLEgo, if_pos hp1, PLEgo, if_neg hp2]
    rw [PLEgo, if_neg hp2, PLEgo, if_pos hp1]
  · rw [PLEgo, if_neg hp1, PLEgo, if_pos hp2]
    rw [PLEgo, if_pos hp2, PLEgo, if_neg hp1]
  · rw [PLEgo, if_neg hp1, PLEgo, if_neg hp2]
    rw [PLEgo, if_neg hp2, PLEgo, if_neg hp1]

/-- The loop of PureLiteralElimination computes the same formula and the same
assignment whatever order the keys of the occurrence-count map are enumerated
in. -/
theorem PLEgo_perm (cnf0 : List (List Int)) (order1 order2 : List Int)
    (hperm : order1.Perm order2) :
    ∀ (cnf : List (List Int)) (a : Assgn), PLEgo cnf0 order1 cnf a = PLEgo cnf0 order2 cnf a := by
  induction hperm with
  | nil => intro cnf a; rfl
  | cons x p ih =>
    intro cnf a
    rw [PLEgo, PLEgo]
    by_cases hp : pureP cnf0 x
    · rw [if_pos hp, if_pos hp]
      exact ih _ _
    · rw [if_neg hp, if_neg hp]
      exact ih _ _
  | swap x y l =>
    intro cnf a
    exact PLEgo_swap cnf0 y x l cnf a
  | trans p1 p2 ih1 ih2 =>
    intro cnf a
    exact (ih1 cnf a).trans (ih2 cnf a)

/-- C1: Soundness of the solver.  For every formula meeting the interface
preconditions (every clause non-empty, every literal a nonzero integer), if
DPLL on the empty assignment returns true, then the assignment obtained after
CompleteAssignment over the original (pre-search) formula makes at least one
literal true in every clause of that original formula. -/
theorem dpll_sound (fuel : Nat) (cnf : List (List Int)) (a' : Assgn)
    (hne : ∀ c ∈ cnf, c ≠ []) (hnz : ∀ c ∈ cnf, ∀ l ∈ c, l ≠ 0)
    (heq : DPLLgo fuel cnf emptyA = some (true, a')) :
    ∀ c ∈ cnf, ∃ l ∈ c, evalLitA (CompleteAssignment cnf a') l = true := by
  intro c hc
  rcases DPLLgo_sound fuel cnf emptyA a' hnz heq c hc with ⟨l, hl, hE⟩
  exact ⟨l, hl, evalLitA_CompleteAssignment cnf a' l hE⟩

theorem dpll_sound_witness :
    ∃ l ∈ ([1, -2] : List Int),
      evalLitA (CompleteAssignment [[1, -2], [-1, 3], [2, -3]]
        ((DPLLgo 4 [[1, -2], [-1, 3], [2, -3]] emptyA).getD (true, emptyA)).2) l = true :=
  dpll_sound 4 [[1, -2], [-1, 3], [2, -3]]
    ((DPLLgo 4 [[1, -2], [-1, 3], [2, -3]] emptyA).getD (true, emptyA)).2
    (by decide) (by decide) (by rfl) [1, -2] (by decide)

/-- C2: Completeness of the solver.  For every formula meeting the interface
preconditions, if DPLL on the empty assignment returns false, then no total
Boolean valuation satisfies every clause of the formula. -/
theorem dpll_complete (fuel : Nat) (cnf : List (List Int)) (a' : Assgn)
    (hne : ∀ c ∈ cnf, c ≠ []) (hnz : ∀ c ∈ cnf, ∀ l ∈ c, l ≠ 0)
    (heq : DPLLgo fuel cnf emptyA = some (false, a')) :
    ∀ w : Int → Bool, ¬ satW w cnf :=
  DPLLgo_complete fuel cnf emptyA a' heq

theorem dpll_complete_witness : ¬ satW (fun _ => true) [[1], [-1]] :=
  dpll_complete 3 [[1], [-1]] ((DPLLgo 3 [[1], [-1]] emptyA).getD (false, emptyA)).2
    (by decide) (by decide) (by rfl) (fun _ => true)

/-- C3: Correctness of Substitute.  assign drops exactly the clauses that
contain the literal made true, removes every occurrence of the literal made
false from each remaining clause, keeps all other literals unchanged in order,
and keeps a clause that loses all its literals as an (empty) clause. -/
theorem assign_substitute_spec (cnf : List (List Int)) (v : Int) (b : Bool) :
    assign cnf v b = (cnf.filter (fun c => decide (tLit v b ∉ c))).map
      (fun c => c.filter (fun l => decide (l ≠ fLit v b))) := by
  rw [assign_eq]
  apply List.map_congr_left
  intro c hc
  rcases List.mem_filter.mp hc with ⟨_, hpred⟩
  have ht : tLit v b ∉ c := by simpa using hpred
  apply List.filter_congr
  intro x hx
  have hxt : x ≠ tLit v b := fun hc2 => ht (hc2 ▸ hx)
  rw [decide_eq_decide]
  cases b <;> simp only [tLit, fLit] at hxt ⊢ <;> simp at hxt ⊢ <;> omega

/-- C4: Unit-propagation fixed-point contract.  After UnitPropagation no
clause of length exactly 1 remains unless the success flag is false, and the
flag is false iff the returned formula contains an empty clause. -/
theorem unit_propagation_fixed_point (cnf : List (List Int)) (a : Assgn) :
    ((UnitPropagation cnf a).2.2 = true → ∀ c ∈ (UnitPropagation cnf a).1, c.length ≠ 1)
      ∧ ((UnitPropagation cnf a).2.2 = false ↔ ∃ c ∈ (UnitPropagation cnf a).1, c = []) :=
  ⟨fun _ => UP_no_unit cnf a, UP_flag_false_iff cnf a⟩

theorem unit_propagation_fixed_point_witness :
    (UnitPropagation [[1], [-1]] emptyA).2.2 = false :=
  (unit_propagation_fixed_point [[1], [-1]] emptyA).2.mpr (by decide)

/-- C5: Termination of the search.  DPLL run with fuel one more than the
number of distinct variables of the formula always returns a result: the
recursion depth is bounded by the variable count, because every recursive call
substitutes away a variable still occurring in the formula. -/
theorem dpll_terminates (cnf : List (List Int)) (a : Assgn) :
    ∃ r, DPLL cnf a = some r := by
  unfold DPLL
  exact DPLLgo_total _ cnf a (by omega)

/-- C6: Pure-literal elimination cannot create a conflict: if the formula has
no empty clause, the formula PureLiteralElimination returns has none either. -/
theorem pure_literal_no_conflict (cnf : List (List Int)) (a : Assgn)
    (h : ∀ c ∈ cnf, c ≠ []) :
    ∀ c ∈ (PureLiteralElimination cnf a).1, c ≠ [] :=
  PLE_no_empty cnf a h

theorem pure_literal_no_conflict_witness :
    [] ∉ (PureLiteralElimination [[1, 2], [1, 3]] emptyA).1 :=
  fun h => pure_literal_no_conflict [[1, 2], [1, 3]] emptyA (by decide) [] h rfl

/-- C7: Totality of assignment completion.  The map CompleteAssignment returns
has a key for the magnitude of every literal of the formula; keys already
present keep their values, and missing variables get the default value true. -/
theorem complete_assignment_total (cnf : List (List Int)) (a : Assgn) :
    (∀ c ∈ cnf, ∀ l ∈ c,
      CompleteAssignment cnf a (Solver.abs l) = some ((a (Solver.abs l)).getD true))
      ∧ (∀ x : Int, ∀ bv : Bool, a x = some bv → CompleteAssignment cnf a x = some bv) := by
  constructor
  · intro c hc l hl
    cases hal : a (Solver.abs l) with
    | none =>
      exact CompleteAssignment_none_true cnf a (Solver.abs l) hal ⟨c, hc, l, hl, rfl⟩
    | some bv =>
      exact CompleteAssignment_pres cnf a (Solver.abs l) bv hal
  · exact fun x bv h => CompleteAssignment_pres cnf a x bv h

theorem complete_assignment_total_witness :
    CompleteAssignment [[5]] emptyA (Solver.abs 5) = some ((emptyA (Solver.abs 5)).getD true) :=
  (complete_assignment_total [[5]] emptyA).1 [5] (by decide) 5 (by decide)

/-- C8: Determinism of pure-literal elimination.  Purity is judged once
up-front from the frozen occurrence counts, and running the elimination loop
over any enumeration order of the occurrence-count map keys yields the same
formula and the same assignment as the canonical run. -/
theorem pure_literal_deterministic (cnf : List (List Int)) (a : Assgn) (order : List Int)
    (hperm : order.Perm (litOrder cnf)) :
    PLEgo cnf order cnf a = PureLiteralElimination cnf a :=
  PLEgo_perm cnf order (litOrder cnf) hperm cnf a

theorem pure_literal_deterministic_witness :
    PLEgo [[1, 2], [1, 3]] [3, 2, 1] [[1, 2], [1, 3]] emptyA =
      PureLiteralElimination [[1, 2], [1, 3]] emptyA :=
  pure_literal_deterministic [[1, 2], [1, 3]] emptyA [3, 2, 1] (by decide)

/-- C9: Idempotence of Substitute: applying assign for the same variable and
value twice in a row yields the same formula as applying it once. -/
theorem assign_idem (cnf : List (List Int)) (v : Int) (b : Bool) :
    assign (assign cnf v b) v b = assign cnf v b := by
  rw [assign_eq (assign cnf v b) v b]
  have h1 : (assign cnf v b).filter (fun c => decide (tLit v b ∉ c)) = assign cnf v b := by
    apply List.filter_eq_self.mpr
    intro c' hc'
    simp only [decide_eq_true_eq]
    intro hmem
    rcases lit_of_mem_assign cnf v b c' hc' _ hmem with ⟨_, hne1, hne2⟩
    rcases tLit_or v b with ht | ht
    · exact hne1 ht
    · exact hne2 ht
  rw [h1]
  have h2 : ∀ c' ∈ assign cnf v b,
      c'.filter (fun l => decide (¬(l = v ∨ l = -v))) = c' := by
    intro c' hc'
    apply List.filter_eq_self.mpr
    intro x hx
    simp only [decide_eq_true_eq]
    rcases lit_of_mem_assign cnf v b c' hc' x hx with ⟨_, hne1, hne2⟩
    rintro (h | h)
    · exact hne1 h
    · exact hne2 h
  rw [List.map_congr_left h2]
  simp

/-- C10: Graceful handling of empty clauses.  If the input formula already
contains an empty clause, UnitPropagation reports failure and DPLL returns
false (with the assignment UnitPropagation produced). -/
theorem empty_clause_graceful (cnf : List (List Int)) (a : Assgn) (fuel : Nat)
    (h : [] ∈ cnf) :
    (UnitPropagation cnf a).2.2 = false ∧
      DPLLgo (fuel + 1) cnf a = some (false, (UnitPropagation cnf a).2.1) := by
  have hflag : (UnitPropagation cnf a).2.2 = false :=
    (UP_flag_false_iff cnf a).mpr ⟨[], UP_nil cnf a h, rfl⟩
  refine ⟨hflag, ?_⟩
  rw [DPLLgo]
  simp only [hflag, if_pos]

theorem empty_clause_graceful_witness :
    (UnitPropagation [[]] emptyA).2.2 = false ∧
      DPLLgo 1 [[]] emptyA = some (false, (UnitPropagation [[]] emptyA).2.1) :=
  empty_clause_graceful [[]] emptyA 0 (by decide)

end Solver
